import Mathlib

/-!
Verification development for the metric evaluation core of the sims_maf
repository (files simpleMetrics.py and tgaps.py).  Data slices are modelled
as lists of exact scalars: rational numbers for the metrics whose arithmetic
is field arithmetic, and real numbers for the metrics that use square roots
or trigonometry.  Fallible numpy operations are modelled with Except.
-/

namespace SimsMaf

/-- Modelled from the spec: baseMetric.py is not among the sources; the spec
states that badValue defaults to the sentinel -666, returned whenever the
statistic is undefined. -/
def defaultBadval : ℚ := -666

/-- Result of a numpy floating computation that can produce a quiet NaN
(for example np.mean of an empty array) without raising. -/
inductive NpValue where
  | num (q : ℚ)
  | nan
deriving DecidableEq

/-- Embeds np.sort: sort ascending. -/
def np_sort {α : Type _} [LinearOrder α] (xs : List α) : List α :=
  List.insertionSort (fun a b => a ≤ b) xs

/-- Embeds np.diff: consecutive differences, entry i is xs[i+1] - xs[i]. -/
def np_diff {α : Type _} [Sub α] (xs : List α) : List α :=
  List.zipWith (fun a b => b - a) xs xs.tail

/-- Embeds np.max on a possibly empty array: raises ValueError when empty. -/
def np_max (xs : List ℚ) : Except String ℚ :=
  match xs with
  | [] => .error "ValueError: zero-size array to reduction operation maximum which has no identity"
  | a :: t => .ok (t.foldl max a)

/-- Embeds np.mean over rationals: NaN on an empty array, otherwise sum over length. -/
def np_mean (xs : List ℚ) : NpValue :=
  if xs.length = 0 then .nan else .num (xs.sum / xs.length)

/-- Embeds MaxMetric.run: np.max of the column slice. -/
def maxMetricRun (dataSlice : List ℚ) : Except String ℚ :=
  np_max dataSlice

/-- Embeds MeanMetric.run: np.mean of the column slice. -/
def meanMetricRun (dataSlice : List ℚ) : NpValue :=
  np_mean dataSlice

/-- Embeds FracAboveMetric.run: count of values at or above the cutoff, divided
by the float size of the column (a Python ZeroDivisionError when the slice is
empty), scaled by the configured scale. -/
def fracAboveMetricRun (cutoff scale : ℚ) (dataSlice : List ℚ) : Except String ℚ :=
  let good : ℕ := dataSlice.countP (fun x => decide (cutoff ≤ x))
  if dataSlice.length = 0 then .error "ZeroDivisionError: float division by zero"
  else .ok ((good : ℚ) / (dataSlice.length : ℚ) * scale)

/-- Embeds the badval override in CountSubsetMetric.__init__: self.badval = 0. -/
def countSubsetMetricBadval : ℚ := 0

/-- Embeds CountSubsetMetric.run: length of np.where(column == subset). -/
def countSubsetMetricRun (subset : ℚ) (dataSlice : List ℚ) : ℚ :=
  (dataSlice.countP (fun x => decide (x = subset)) : ℕ)

/-- Embeds np.percentile with the default linear interpolation: with sorted
values s of length n, the index h = (n-1)*q/100 is split into its floor and
fractional part and the value is interpolated between the two bracketing
entries. -/
def np_percentile (xs : List ℚ) (q : ℚ) : ℚ :=
  let s := np_sort xs
  let h : ℚ := ((s.length : ℚ) - 1) * q / 100
  let i : ℤ := ⌊h⌋
  let lo := s.getD i.toNat 0
  let hi := s.getD (i.toNat + 1) lo
  lo + (h - (i : ℚ)) * (hi - lo)

/-- Embeds RobustRmsMetric.run: inter-quartile range divided by 1.349. -/
def robustRmsMetricRun (dataSlice : List ℚ) : ℚ :=
  (np_percentile dataSlice 75 - np_percentile dataSlice 25) / (1349/1000)

/-- Embeds np.arange(start, stop, step): start + k*step while below stop. -/
def np_arange (start stop step : ℚ) : List ℚ :=
  (List.range (⌈(stop - start) / step⌉).toNat).map (fun k : ℕ => start + (k : ℚ) * step)

/-- Embeds np.roll: rotate the list right by i positions. -/
def np_roll {α : Type _} (xs : List α) (i : ℕ) : List α :=
  xs.drop (xs.length - i % xs.length) ++ xs.take (xs.length - i % xs.length)

/-- Embeds np.concatenate on a list of arrays: ValueError when the list is empty. -/
def np_concatenate (ls : List (List ℚ)) : Except String (List ℚ) :=
  match ls with
  | [] => .error "ValueError: need at least one array to concatenate"
  | _ => .ok ls.flatten

/-- Embeds np.histogram(xs, bins) with explicit monotone bin edges: every bin
is half-open except the last, which is closed; values outside the edges are
not counted. -/
def np_histogram (xs : List ℚ) (bins : List ℚ) : List ℕ :=
  (List.range (bins.length - 1)).map (fun j =>
    if j + 2 = bins.length then
      xs.countP (fun x => decide (bins.getD j 0 ≤ x ∧ x ≤ bins.getD (j + 1) 0))
    else
      xs.countP (fun x => decide (bins.getD j 0 ≤ x ∧ x < bins.getD (j + 1) 0)))

/-- Result of a gap-histogram metric run: the bad value for short slices, a
histogram vector otherwise, or a raised error propagated from numpy. -/
inductive GapsResult where
  | badval (v : ℚ)
  | hist (counts : List ℕ)
  | err (msg : String)
deriving DecidableEq

/-- Embeds the gap computation shared verbatim by TgapsMetric.run and
NightgapsMetric.run: consecutive differences of the (already sorted) times,
or, when allGaps is set, the concatenation over every offset i from 1 to
N-1 of (times - np.roll(times, i)) sliced from index i. -/
def gapsCompute (allGaps : Bool) (times : List ℚ) : Except String (List ℚ) :=
  if allGaps then
    np_concatenate ((List.range' 1 (times.length - 1)).map
      (fun i => (List.zipWith (fun a b => a - b) times (np_roll times i)).drop i))
  else .ok (np_diff times)

/-- Embeds the default TgapsMetric bins np.arange(0.5, 60.0, 0.5). -/
def defaultTgapsBins : List ℚ := np_arange (1/2) 60 (1/2)

/-- Embeds the default NightgapsMetric bins np.arange(0, 10, 1). -/
def defaultNightgapsBins : List ℚ := np_arange 0 10 1

/-- Embeds TgapsMetric.run: the bad value for slices with fewer than two rows,
otherwise the histogram of the gaps of the sorted times. -/
def tgapsMetricRun (allGaps : Bool) (bins : List ℚ) (dataSlice : List ℚ) : GapsResult :=
  if dataSlice.length < 2 then .badval defaultBadval
  else
    match gapsCompute allGaps (np_sort dataSlice) with
    | .ok dts => .hist (np_histogram dts bins)
    | .error e => .err e

/-- Embeds np.unique: the sorted list of distinct values. -/
def np_unique (xs : List ℚ) : List ℚ := np_sort xs.dedup

/-- Embeds NightgapsMetric.run: the bad value for slices with fewer than two
rows, otherwise the histogram of the gaps of np.sort(np.unique(nights)). -/
def nightgapsMetricRun (allGaps : Bool) (bins : List ℚ) (dataSlice : List ℚ) : GapsResult :=
  if dataSlice.length < 2 then .badval defaultBadval
  else
    match gapsCompute allGaps (np_sort (np_unique dataSlice)) with
    | .ok dnights => .hist (np_histogram dnights bins)
    | .error e => .err e

/-- Spec-side description of all-gaps mode, following the claim wording: for
every offset i from 1 to N-1, the differences of the time series against
itself shifted by i positions, concatenated. -/
def allPairGaps (times : List ℚ) : List ℚ :=
  ((List.range' 1 (times.length - 1)).map
    (fun i => (List.zipWith (fun a b => a - b) times (np_roll times i)).drop i)).flatten

/-- The constant twopi of simpleMetrics.py. -/
noncomputable def twopi : ℝ := 2 * Real.pi

/-- Embeds the numpy modulo operation with a positive real modulus, as used in
(angles - rotation) % twopi: the representative in [0, b). -/
noncomputable def pymod (a b : ℝ) : ℝ := a - b * (⌊a / b⌋ : ℤ)

/-- Embeds np.mean over the reals (the claims using it assume a non-empty slice). -/
noncomputable def np_mean_r (xs : List ℝ) : ℝ := xs.sum / xs.length

/-- Embeds np.std: the square root of the mean squared deviation from the mean
(population standard deviation). -/
noncomputable def np_std_r (xs : List ℝ) : ℝ :=
  Real.sqrt (np_mean_r (xs.map (fun x => (x - np_mean_r xs) ^ 2)))

/-- Maximum of a list in the sense of the numpy max method (junk value 0 for
the empty list, which numpy rejects). -/
def listMax {α : Type _} [LinearOrder α] [Inhabited α] : List α → α
  | [] => default
  | a :: l => l.foldl max a

/-- Minimum of a list in the sense of the numpy min method. -/
def listMin {α : Type _} [LinearOrder α] [Inhabited α] : List α → α
  | [] => default
  | a :: l => l.foldl min a

/-- Index of the last occurrence of the maximum, embedding
np.where(d == d.max())[0] followed by taking the final entry. -/
def lastArgmax {α : Type _} [LinearOrder α] [Inhabited α] : List α → ℕ
  | [] => 0
  | a :: l => if l = [] then 0 else if listMax l < a then 0 else 1 + lastArgmax l

/-- Embeds the local variable start_to_end of _rotateAngles: the wraparound
gap twopi minus the largest sorted angle plus the smallest sorted angle. -/
noncomputable def startToEnd (angles : List ℝ) : ℝ :=
  twopi - (np_sort angles).getLastD 0 + (np_sort angles).headI

/-- Embeds the local variable diffangles of _rotateAngles: np.diff of the
sorted angles concatenated with the wraparound gap. -/
noncomputable def gapSeq (angles : List ℝ) : List ℝ :=
  np_diff (np_sort angles) ++ [startToEnd angles]

/-- Embeds the local variable rotation of _rotateAngles: the first sorted
angle when the last maximal gap is the wraparound gap at index length - 1,
otherwise the sorted angle just after the last maximal gap. -/
noncomputable def rotAngle (angles : List ℝ) : ℝ :=
  if lastArgmax (gapSeq angles) = angles.length - 1 then (np_sort angles).headI
  else (np_sort angles).getD (lastArgmax (gapSeq angles) + 1) 0

/-- Embeds the returned array (angles - rotation) % twopi of _rotateAngles. -/
noncomputable def rotatedAngles (angles : List ℝ) : List ℝ :=
  angles.map (fun a => pymod (a - rotAngle angles) twopi)

/-- Embeds the private helper _rotateAngles of simpleMetrics.py: sort the
angles (indexing an empty array raises), form the consecutive gaps plus the
wraparound gap, fail when the wraparound gap is negative, locate the last
maximal gap, rotate so that the angle just after that gap becomes zero, and
reduce modulo twopi. -/
noncomputable def rotateAngles (angles : List ℝ) : Except String (ℝ × List ℝ) :=
  if angles.length = 0 then
    .error "IndexError: index -1 is out of bounds for axis 0 with size 0"
  else if startToEnd angles < 0 then
    .error "Angular metrics expect radians, this seems to be in degrees"
  else
    .ok (rotAngle angles, rotatedAngles angles)

/-- Embeds np.arctan2 via the complex argument: arctan2 y x is the argument of
the complex number with real part x and imaginary part y. -/
noncomputable def np_arctan2 (y x : ℝ) : ℝ := Complex.arg ⟨x, y⟩

/-- Embeds MeanAngleMetric.run: average the unit vectors of the angles,
recover the angle of the resultant with arctan2 reduced modulo twopi, and
override the result to pi when the resultant is shorter than 0.1. -/
noncomputable def meanAngleMetricRun (dataSlice : List ℝ) : ℝ :=
  let meanx := np_mean_r (dataSlice.map Real.cos)
  let meany := np_mean_r (dataSlice.map Real.sin)
  let angle := np_arctan2 meany meanx
  let radius := Real.sqrt (meanx ^ 2 + meany ^ 2)
  let mean := pymod angle twopi
  if radius < 0.1 then Real.pi else mean

/-- Embeds RmsAngleMetric.run: rotate the angles, then take np.std. -/
noncomputable def rmsAngleMetricRun (dataSlice : List ℝ) : Except String ℝ :=
  (rotateAngles dataSlice).map (fun p => np_std_r p.2)

/-- Embeds FullRangeAngleMetric.run: rotate the angles, then take max minus min. -/
noncomputable def fullRangeAngleMetricRun (dataSlice : List ℝ) : Except String ℝ :=
  (rotateAngles dataSlice).map (fun p => listMax p.2 - listMin p.2)

/-- Embeds the boundary of NoutliersNsigmaMetric.run: the mean plus nSigma
times the standard deviation. -/
noncomputable def noutliersBoundary (nSigma : ℝ) (xs : List ℝ) : ℝ :=
  np_mean_r xs + nSigma * np_std_r xs

/-- Embeds NoutliersNsigmaMetric.run: when nSigma is non-negative, count the
values strictly above the boundary, otherwise count the values strictly below
it. -/
noncomputable def noutliersNsigmaMetricRun (nSigma : ℝ) (dataSlice : List ℝ) : ℕ :=
  if 0 ≤ nSigma then
    dataSlice.countP (fun x => decide (noutliersBoundary nSigma dataSlice < x))
  else
    dataSlice.countP (fun x => decide (x < noutliersBoundary nSigma dataSlice))

end SimsMaf

namespace SimsMaf

/-! ### Helper lemmas -/

theorem length_np_sort {α : Type _} [LinearOrder α] (xs : List α) :
    (np_sort xs).length = xs.length :=
  (List.perm_insertionSort _ xs).length_eq

theorem perm_np_sort {α : Type _} [LinearOrder α] (xs : List α) :
    (np_sort xs).Perm xs :=
  List.perm_insertionSort _ xs

theorem sorted_np_sort {α : Type _} [LinearOrder α] (xs : List α) :
    (np_sort xs).Sorted (fun a b => a ≤ b) :=
  List.sorted_insertionSort _ xs

theorem np_concatenate_of_ne_nil (ls : List (List ℚ)) (h : ls ≠ []) :
    np_concatenate ls = .ok ls.flatten := by
  cases ls with
  | nil => exact absurd rfl h
  | cons a t => rfl

theorem tgapsMetricRun_false_eq (bins dataSlice : List ℚ) (h : 2 ≤ dataSlice.length) :
    tgapsMetricRun false bins dataSlice =
      .hist (np_histogram (np_diff (np_sort dataSlice)) bins) := by
  unfold tgapsMetricRun
  rw [if_neg (by omega)]
  rfl

theorem tgapsMetricRun_true_eq (bins dataSlice : List ℚ) (h : 2 ≤ dataSlice.length) :
    tgapsMetricRun true bins dataSlice =
      .hist (np_histogram (allPairGaps (np_sort dataSlice)) bins) := by
  unfold tgapsMetricRun gapsCompute
  rw [if_neg (by omega)]
  have hlen : (np_sort dataSlice).length = dataSlice.length := length_np_sort dataSlice
  have hne : (List.range' 1 ((np_sort dataSlice).length - 1)).map
      (fun i => (List.zipWith (fun a b => a - b) (np_sort dataSlice)
        (np_roll (np_sort dataSlice) i)).drop i) ≠ [] := by
    simp only [ne_eq, List.map_eq_nil_iff, List.range'_eq_nil]
    omega
  rw [show (if true = true then
      np_concatenate ((List.range' 1 ((np_sort dataSlice).length - 1)).map
        (fun i => (List.zipWith (fun a b => a - b) (np_sort dataSlice)
          (np_roll (np_sort dataSlice) i)).drop i))
    else Except.ok (np_diff (np_sort dataSlice))) = np_concatenate
      ((List.range' 1 ((np_sort dataSlice).length - 1)).map
        (fun i => (List.zipWith (fun a b => a - b) (np_sort dataSlice)
          (np_roll (np_sort dataSlice) i)).drop i)) from rfl]
  rw [np_concatenate_of_ne_nil _ hne]
  rfl

theorem nightgapsMetricRun_eq (allGaps : Bool) (bins dataSlice : List ℚ)
    (h : 2 ≤ dataSlice.length) :
    nightgapsMetricRun allGaps bins dataSlice =
      (match gapsCompute allGaps (np_sort (np_unique dataSlice)) with
       | .ok dnights => .hist (np_histogram dnights bins)
       | .error e => .err e) := by
  unfold nightgapsMetricRun
  rw [if_neg (by omega)]

theorem tgapsMetricRun_eq (allGaps : Bool) (bins dataSlice : List ℚ)
    (h : 2 ≤ dataSlice.length) :
    tgapsMetricRun allGaps bins dataSlice =
      (match gapsCompute allGaps (np_sort dataSlice) with
       | .ok dts => .hist (np_histogram dts bins)
       | .error e => .err e) := by
  unfold tgapsMetricRun
  rw [if_neg (by omega)]

end SimsMaf

namespace SimsMaf

theorem np_histogram_getD (xs bins : List ℚ) (j : ℕ) (hj : j + 1 < bins.length)
    (hne : j + 2 ≠ bins.length) :
    (np_histogram xs bins).getD j 0 =
      xs.countP (fun x => decide (bins.getD j 0 ≤ x ∧ x < bins.getD (j + 1) 0)) := by
  unfold np_histogram
  have hlen : ((List.range (bins.length - 1)).map (fun j =>
      if j + 2 = bins.length then
        xs.countP (fun x => decide (bins.getD j 0 ≤ x ∧ x ≤ bins.getD (j + 1) 0))
      else
        xs.countP (fun x => decide (bins.getD j 0 ≤ x ∧ x < bins.getD (j + 1) 0)))).length
      = bins.length - 1 := by
    rw [List.length_map, List.length_range]
  have hj2 : j < bins.length - 1 := by omega
  rw [List.getD_eq_getElem _ _ (by rw [hlen]; exact hj2)]
  rw [List.getElem_map, List.getElem_range, if_neg hne]

theorem np_arange_length (start stop step : ℚ) :
    (np_arange start stop step).length = (⌈(stop - start) / step⌉).toNat := by
  unfold np_arange
  rw [List.length_map, List.length_range]

theorem np_arange_getD (start stop step : ℚ) (k : ℕ)
    (hk : k < (⌈(stop - start) / step⌉).toNat) :
    (np_arange start stop step).getD k 0 = start + (k : ℚ) * step := by
  rw [List.getD_eq_getElem _ _ (by rw [np_arange_length]; exact hk)]
  simp only [np_arange, List.getElem_map, List.getElem_range]

theorem defaultTgapsBins_length : defaultTgapsBins.length = 119 := by
  rw [defaultTgapsBins, np_arange_length]
  norm_num
  rfl

theorem defaultTgapsBins_getD (k : ℕ) (hk : k < 119) :
    defaultTgapsBins.getD k 0 = 1/2 + (k : ℚ) * (1/2) := by
  rw [defaultTgapsBins, np_arange_getD]
  norm_num
  omega

end SimsMaf

namespace SimsMaf

theorem tgapsMetricRun_short (allGaps : Bool) (bins dataSlice : List ℚ)
    (h : dataSlice.length < 2) :
    tgapsMetricRun allGaps bins dataSlice = .badval defaultBadval := by
  unfold tgapsMetricRun
  rw [if_pos h]

theorem nightgapsMetricRun_short (allGaps : Bool) (bins dataSlice : List ℚ)
    (h : dataSlice.length < 2) :
    nightgapsMetricRun allGaps bins dataSlice = .badval defaultBadval := by
  unfold nightgapsMetricRun
  rw [if_pos h]

theorem tgaps_example_consecutive : np_diff (np_sort [(10:ℚ),20,30,40]) = [10,10,10] := by
  norm_num [np_sort, List.insertionSort, List.orderedInsert, np_diff]

theorem tgaps_example_allGaps :
    allPairGaps (np_sort [(10:ℚ),20,30,40]) = [10,10,10,20,20,30] := by
  norm_num [np_sort, List.insertionSort, List.orderedInsert, allPairGaps, np_roll, List.range']

theorem hist_bin19_of_consecutive :
    (np_histogram [10,10,10] defaultTgapsBins).getD 19 0 = 3 := by
  rw [np_histogram_getD _ _ 19 (by rw [defaultTgapsBins_length]; omega)
    (by rw [defaultTgapsBins_length]; omega)]
  rw [defaultTgapsBins_getD 19 (by omega), defaultTgapsBins_getD 20 (by omega)]
  simp only [List.countP_cons, List.countP_nil]
  norm_num

theorem hist_bin19_of_allGaps :
    (np_histogram [10,10,10,20,20,30] defaultTgapsBins).getD 19 0 = 3 := by
  rw [np_histogram_getD _ _ 19 (by rw [defaultTgapsBins_length]; omega)
    (by rw [defaultTgapsBins_length]; omega)]
  rw [defaultTgapsBins_getD 19 (by omega), defaultTgapsBins_getD 20 (by omega)]
  simp only [List.countP_cons, List.countP_nil]
  norm_num

theorem hist_bin39_of_allGaps :
    (np_histogram [10,10,10,20,20,30] defaultTgapsBins).getD 39 0 = 2 := by
  rw [np_histogram_getD _ _ 39 (by rw [defaultTgapsBins_length]; omega)
    (by rw [defaultTgapsBins_length]; omega)]
  rw [defaultTgapsBins_getD 39 (by omega), defaultTgapsBins_getD 40 (by omega)]
  simp only [List.countP_cons, List.countP_nil]
  norm_num

theorem hist_bin59_of_allGaps :
    (np_histogram [10,10,10,20,20,30] defaultTgapsBins).getD 59 0 = 1 := by
  rw [np_histogram_getD _ _ 59 (by rw [defaultTgapsBins_length]; omega)
    (by rw [defaultTgapsBins_length]; omega)]
  rw [defaultTgapsBins_getD 59 (by omega), defaultTgapsBins_getD 60 (by omega)]
  simp only [List.countP_cons, List.countP_nil]
  norm_num

end SimsMaf

namespace SimsMaf

/-! ### Claim theorems for the scalar and gap metrics -/

/-- Claim C1 counterexample: on the data slice with zero rows, MaxMetric.run
raises a ValueError instead of returning the declared bad-value sentinel, so
the claim that every metric variant returns the sentinel on an empty slice
and does not raise is false. -/
theorem maxMetric_empty_raises_counterexample :
    maxMetricRun [] =
      .error "ValueError: zero-size array to reduction operation maximum which has no identity" ∧
    maxMetricRun [] ≠ .ok defaultBadval := by
  refine ⟨rfl, ?_⟩
  simp [maxMetricRun, np_max]

/-- Claim C1 amended: on an empty slice the run methods do not recover to the
bad-value sentinel: MaxMetric.run raises a ValueError, MeanMetric.run
propagates NaN, and FracAboveMetric.run raises a ZeroDivisionError for every
configured cutoff and scale. -/
theorem emptySlice_run_amended (cutoff scale : ℚ) :
    maxMetricRun [] =
      .error "ValueError: zero-size array to reduction operation maximum which has no identity" ∧
    meanMetricRun [] = .nan ∧
    fracAboveMetricRun cutoff scale [] = .error "ZeroDivisionError: float division by zero" ∧
    maxMetricRun [] ≠ .ok defaultBadval ∧
    meanMetricRun [] ≠ .num defaultBadval := by
  refine ⟨rfl, rfl, rfl, ?_, ?_⟩
  · simp [maxMetricRun, np_max]
  · simp [meanMetricRun, np_mean]

/-- Claim C2 counterexample: CountSubsetMetric overrides its bad-value
sentinel to 0, which is exactly the computed count of a slice with zero
matching rows, so the sentinel is not distinct from a computed zero for this
metric instance. -/
theorem countSubset_sentinel_counterexample :
    countSubsetMetricBadval = countSubsetMetricRun 5 [1, 2, 3] ∧
    countSubsetMetricRun 5 [1, 2, 3] = 0 := by
  have h : countSubsetMetricRun 5 [1, 2, 3] = 0 := by
    simp only [countSubsetMetricRun, List.countP_cons, List.countP_nil]
    norm_num
  exact ⟨by rw [h]; rfl, h⟩

/-- Claim C2 amended: the default bad-value sentinel -666 is distinct from
zero, but CountSubsetMetric overrides its sentinel to 0, so for that metric
the sentinel coincides with the computed count 0 of a slice with zero
matching rows. -/
theorem badval_sentinel_amended :
    defaultBadval = -666 ∧
    defaultBadval ≠ 0 ∧
    countSubsetMetricBadval = 0 ∧
    countSubsetMetricRun 5 [1, 2, 3] = countSubsetMetricBadval := by
  refine ⟨rfl, by norm_num [defaultBadval], rfl, ?_⟩
  simp only [countSubsetMetricRun, countSubsetMetricBadval, List.countP_cons, List.countP_nil]
  norm_num

/-- Claim C9: RobustRmsMetric.run equals the inter-quartile range divided by
1.349 for every slice with at least 4 distinct values, and on the concrete
slice 1,2,3,4 the percentiles are 3.25 and 1.75, giving 1500/1349. -/
theorem robustRms_iqr_formula (dataSlice : List ℚ) (h : 4 ≤ dataSlice.dedup.length) :
    robustRmsMetricRun dataSlice =
      (np_percentile dataSlice 75 - np_percentile dataSlice 25) / (1349/1000) ∧
    np_percentile [1, 2, 3, 4] 75 = 13/4 ∧
    np_percentile [1, 2, 3, 4] 25 = 7/4 ∧
    robustRmsMetricRun [1, 2, 3, 4] = 1500/1349 := by
  have h2 : ((2:ℤ)).toNat = 2 := rfl
  have h0 : ((0:ℤ)).toNat = 0 := rfl
  have p75 : np_percentile [1, 2, 3, 4] 75 = 13/4 := by
    norm_num [np_percentile, np_sort, List.insertionSort, List.orderedInsert, List.getD, h2]
  have p25 : np_percentile [1, 2, 3, 4] 25 = 7/4 := by
    norm_num [np_percentile, np_sort, List.insertionSort, List.orderedInsert, List.getD, h0]
  refine ⟨rfl, p75, p25, ?_⟩
  rw [robustRmsMetricRun, p75, p25]
  norm_num

/-- Claim C9 witness: the slice 1,2,3,4 has 4 distinct values and the theorem
applies to it. -/
theorem robustRms_iqr_formula_witness :
    4 ≤ ([1, 2, 3, 4] : List ℚ).dedup.length ∧
    (robustRmsMetricRun [1, 2, 3, 4] =
      (np_percentile [1, 2, 3, 4] 75 - np_percentile [1, 2, 3, 4] 25) / (1349/1000) ∧
    np_percentile [1, 2, 3, 4] 75 = 13/4 ∧
    np_percentile [1, 2, 3, 4] 25 = 7/4 ∧
    robustRmsMetricRun [1, 2, 3, 4] = 1500/1349) := by
  have hd : ([1, 2, 3, 4] : List ℚ).dedup = [1, 2, 3, 4] :=
    List.dedup_eq_self.mpr (by norm_num)
  refine ⟨by rw [hd]; simp, robustRms_iqr_formula [1, 2, 3, 4] (by rw [hd]; simp)⟩

end SimsMaf

namespace SimsMaf

/-- Claim C6: with at least 2 rows, TgapsMetric.run histograms the first
differences of the sorted times in consecutive mode, and in all-gaps mode the
concatenation over offsets i = 1..N-1 of the differences of the sorted times
against themselves shifted by i positions; on the times 10,20,30,40 the raw
gaps are 10,10,10 in consecutive mode and 10,10,10,20,20,30 in all-gaps mode,
binned into the configured bin edges (with the default edges, the gap values
10, 20, 30 land in bins 19, 39 and 59 with counts 3, 2, 1). -/
theorem tgaps_modes (bins dataSlice : List ℚ) (h : 2 ≤ dataSlice.length) :
    tgapsMetricRun false bins dataSlice =
      .hist (np_histogram (np_diff (np_sort dataSlice)) bins) ∧
    tgapsMetricRun true bins dataSlice =
      .hist (np_histogram (allPairGaps (np_sort dataSlice)) bins) ∧
    np_diff (np_sort ([10, 20, 30, 40] : List ℚ)) = [10, 10, 10] ∧
    allPairGaps (np_sort [10, 20, 30, 40]) = [10, 10, 10, 20, 20, 30] ∧
    tgapsMetricRun false defaultTgapsBins [10, 20, 30, 40] =
      .hist (np_histogram [10, 10, 10] defaultTgapsBins) ∧
    tgapsMetricRun true defaultTgapsBins [10, 20, 30, 40] =
      .hist (np_histogram [10, 10, 10, 20, 20, 30] defaultTgapsBins) ∧
    (np_histogram [10, 10, 10] defaultTgapsBins).getD 19 0 = 3 ∧
    (np_histogram [10, 10, 10, 20, 20, 30] defaultTgapsBins).getD 19 0 = 3 ∧
    (np_histogram [10, 10, 10, 20, 20, 30] defaultTgapsBins).getD 39 0 = 2 ∧
    (np_histogram [10, 10, 10, 20, 20, 30] defaultTgapsBins).getD 59 0 = 1 := by
  have e5 : tgapsMetricRun false defaultTgapsBins [10, 20, 30, 40] =
      .hist (np_histogram [10, 10, 10] defaultTgapsBins) := by
    rw [tgapsMetricRun_false_eq defaultTgapsBins [10, 20, 30, 40] (by simp),
      tgaps_example_consecutive]
  have e6 : tgapsMetricRun true defaultTgapsBins [10, 20, 30, 40] =
      .hist (np_histogram [10, 10, 10, 20, 20, 30] defaultTgapsBins) := by
    rw [tgapsMetricRun_true_eq defaultTgapsBins [10, 20, 30, 40] (by simp),
      tgaps_example_allGaps]
  exact ⟨tgapsMetricRun_false_eq bins dataSlice h, tgapsMetricRun_true_eq bins dataSlice h,
    tgaps_example_consecutive, tgaps_example_allGaps, e5, e6,
    hist_bin19_of_consecutive, hist_bin19_of_allGaps, hist_bin39_of_allGaps,
    hist_bin59_of_allGaps⟩

/-- Claim C6 witness: the theorem applied to the concrete slice 10,20,30,40
with the default bins. -/
theorem tgaps_modes_witness :
    2 ≤ ([10, 20, 30, 40] : List ℚ).length ∧
    (tgapsMetricRun false defaultTgapsBins [10, 20, 30, 40] =
      .hist (np_histogram (np_diff (np_sort [10, 20, 30, 40])) defaultTgapsBins) ∧
    tgapsMetricRun true defaultTgapsBins [10, 20, 30, 40] =
      .hist (np_histogram (allPairGaps (np_sort [10, 20, 30, 40])) defaultTgapsBins) ∧
    np_diff (np_sort ([10, 20, 30, 40] : List ℚ)) = [10, 10, 10] ∧
    allPairGaps (np_sort [10, 20, 30, 40]) = [10, 10, 10, 20, 20, 30] ∧
    tgapsMetricRun false defaultTgapsBins [10, 20, 30, 40] =
      .hist (np_histogram [10, 10, 10] defaultTgapsBins) ∧
    tgapsMetricRun true defaultTgapsBins [10, 20, 30, 40] =
      .hist (np_histogram [10, 10, 10, 20, 20, 30] defaultTgapsBins) ∧
    (np_histogram [10, 10, 10] defaultTgapsBins).getD 19 0 = 3 ∧
    (np_histogram [10, 10, 10, 20, 20, 30] defaultTgapsBins).getD 19 0 = 3 ∧
    (np_histogram [10, 10, 10, 20, 20, 30] defaultTgapsBins).getD 39 0 = 2 ∧
    (np_histogram [10, 10, 10, 20, 20, 30] defaultTgapsBins).getD 59 0 = 1) :=
  ⟨by simp, tgaps_modes defaultTgapsBins [10, 20, 30, 40] (by simp)⟩

/-- Claim C7: slices with fewer than 2 rows make both TgapsMetric.run and
NightgapsMetric.run return the bad-value sentinel without attempting the gap
computation, and on slices with at least 2 rows NightgapsMetric.run feeds the
shared gap computation with the sorted unique night values where
TgapsMetric.run feeds it the sorted times; the night list used is sorted and
has no duplicates. -/
theorem nightgaps_short_and_unique (allGaps : Bool) (bins shortSlice dataSlice : List ℚ)
    (hshort : shortSlice.length < 2) (h2 : 2 ≤ dataSlice.length) :
    tgapsMetricRun allGaps bins shortSlice = .badval defaultBadval ∧
    nightgapsMetricRun allGaps bins shortSlice = .badval defaultBadval ∧
    nightgapsMetricRun allGaps bins dataSlice =
      (match gapsCompute allGaps (np_sort (np_unique dataSlice)) with
       | .ok dnights => .hist (np_histogram dnights bins)
       | .error e => .err e) ∧
    tgapsMetricRun allGaps bins dataSlice =
      (match gapsCompute allGaps (np_sort dataSlice) with
       | .ok dts => .hist (np_histogram dts bins)
       | .error e => .err e) ∧
    (np_sort (np_unique dataSlice)).Sorted (fun a b => a ≤ b) ∧
    (np_sort (np_unique dataSlice)).Nodup := by
  refine ⟨tgapsMetricRun_short allGaps bins shortSlice hshort,
    nightgapsMetricRun_short allGaps bins shortSlice hshort,
    nightgapsMetricRun_eq allGaps bins dataSlice h2,
    tgapsMetricRun_eq allGaps bins dataSlice h2,
    sorted_np_sort _, ?_⟩
  have hperm : (np_sort (np_unique dataSlice)).Perm dataSlice.dedup := by
    rw [np_unique]
    exact (perm_np_sort _).trans (perm_np_sort _)
  exact hperm.symm.nodup (List.nodup_dedup dataSlice)

/-- Claim C7 witness: the theorem applied to the one-row slice 5 and the
three-row slice 3,3,4 with all-gaps mode and the default night bins. -/
theorem nightgaps_short_and_unique_witness :
    ([5] : List ℚ).length < 2 ∧ 2 ≤ ([3, 3, 4] : List ℚ).length ∧
    (tgapsMetricRun true defaultNightgapsBins [5] = .badval defaultBadval ∧
    nightgapsMetricRun true defaultNightgapsBins [5] = .badval defaultBadval ∧
    nightgapsMetricRun true defaultNightgapsBins [3, 3, 4] =
      (match gapsCompute true (np_sort (np_unique [3, 3, 4])) with
       | .ok dnights => .hist (np_histogram dnights defaultNightgapsBins)
       | .error e => .err e) ∧
    tgapsMetricRun true defaultNightgapsBins [3, 3, 4] =
      (match gapsCompute true (np_sort [3, 3, 4]) with
       | .ok dts => .hist (np_histogram dts defaultNightgapsBins)
       | .error e => .err e) ∧
    (np_sort (np_unique [3, 3, 4])).Sorted (fun a b => a ≤ b) ∧
    (np_sort (np_unique [3, 3, 4])).Nodup) :=
  ⟨by simp, by simp,
    nightgaps_short_and_unique true defaultNightgapsBins [5] [3, 3, 4] (by simp) (by simp)⟩

end SimsMaf

namespace SimsMaf

/-! ### Real-valued helper lemmas -/

theorem twopi_pos : 0 < twopi := by
  rw [twopi]
  positivity

theorem pymod_eq_mul_fract (a b : ℝ) (hb : b ≠ 0) : pymod a b = b * Int.fract (a / b) := by
  rw [pymod, Int.fract, mul_sub, mul_div_cancel₀ _ hb]

theorem pymod_nonneg (a b : ℝ) (hb : 0 < b) : 0 ≤ pymod a b := by
  rw [pymod_eq_mul_fract a b (ne_of_gt hb)]
  exact mul_nonneg hb.le (Int.fract_nonneg _)

theorem pymod_lt (a b : ℝ) (hb : 0 < b) : pymod a b < b := by
  rw [pymod_eq_mul_fract a b (ne_of_gt hb)]
  calc b * Int.fract (a / b) < b * 1 :=
        mul_lt_mul_of_pos_left (Int.fract_lt_one _) hb
    _ = b := mul_one b

theorem np_std_r_nonneg (xs : List ℝ) : 0 ≤ np_std_r xs := Real.sqrt_nonneg _

/-! ### Claim theorems for the statistical outlier and mean-angle metrics -/

/-- Claim C3: for a non-empty slice, NoutliersNsigmaMetric.run uses the
boundary mean + nSigma * std built from the arithmetic mean (not the median):
a non-negative nSigma counts the values strictly greater than the boundary and
a negative nSigma counts the values strictly less than the boundary computed
with that signed nSigma. -/
theorem noutliers_mean_based (nSigmaPos nSigmaNeg : ℝ) (xs : List ℝ)
    (hne : xs ≠ []) (hpos : 0 ≤ nSigmaPos) (hneg : nSigmaNeg < 0) :
    noutliersNsigmaMetricRun nSigmaPos xs =
      xs.countP (fun x => decide (xs.sum / (xs.length : ℝ) + nSigmaPos * np_std_r xs < x)) ∧
    noutliersNsigmaMetricRun nSigmaNeg xs =
      xs.countP (fun x => decide (x < xs.sum / (xs.length : ℝ) + nSigmaNeg * np_std_r xs)) ∧
    noutliersBoundary nSigmaPos xs = np_mean_r xs + nSigmaPos * np_std_r xs ∧
    np_mean_r xs = xs.sum / (xs.length : ℝ) := by
  refine ⟨?_, ?_, rfl, rfl⟩
  · rw [noutliersNsigmaMetricRun, if_pos hpos]
    rfl
  · rw [noutliersNsigmaMetricRun, if_neg (not_le.mpr hneg)]
    rfl

/-- Claim C3 witness: the theorem applied to the slice 1,1 with nSigma 1 and
nSigma -1. -/
theorem noutliers_mean_based_witness :
    ([1, 1] : List ℝ) ≠ [] ∧ (0:ℝ) ≤ 1 ∧ (-1:ℝ) < 0 ∧
    (noutliersNsigmaMetricRun 1 [1, 1] =
      ([1, 1] : List ℝ).countP (fun x =>
        decide (([1, 1] : List ℝ).sum / (([1, 1] : List ℝ).length : ℝ) +
          1 * np_std_r [1, 1] < x)) ∧
    noutliersNsigmaMetricRun (-1) [1, 1] =
      ([1, 1] : List ℝ).countP (fun x =>
        decide (x < ([1, 1] : List ℝ).sum / (([1, 1] : List ℝ).length : ℝ) +
          (-1) * np_std_r [1, 1])) ∧
    noutliersBoundary 1 [1, 1] = np_mean_r [1, 1] + 1 * np_std_r [1, 1] ∧
    np_mean_r [1, 1] = ([1, 1] : List ℝ).sum / (([1, 1] : List ℝ).length : ℝ)) :=
  ⟨by simp, by norm_num, by norm_num,
    noutliers_mean_based 1 (-1) [1, 1] (by simp) (by norm_num) (by norm_num)⟩

/-- Claim C10: with nSigma exactly 0 the non-negative branch is taken, the
boundary collapses to the mean, and the count is of values strictly greater
than the mean; for every nSigma of either sign a value equal to the mean
never satisfies the counting condition. -/
theorem noutliers_zero_sigma (xs : List ℝ) (hne : xs ≠ []) :
    noutliersNsigmaMetricRun 0 xs = xs.countP (fun x => decide (np_mean_r xs < x)) ∧
    noutliersBoundary 0 xs = np_mean_r xs ∧
    (∀ nSigma : ℝ, ∀ x, x = np_mean_r xs →
      ¬ (if 0 ≤ nSigma then noutliersBoundary nSigma xs < x
         else x < noutliersBoundary nSigma xs)) := by
  have hb : noutliersBoundary 0 xs = np_mean_r xs := by
    rw [noutliersBoundary, zero_mul, add_zero]
  refine ⟨?_, hb, ?_⟩
  · rw [noutliersNsigmaMetricRun, if_pos (le_refl (0:ℝ))]
    simp only [hb]
  · intro nSigma x hx
    subst hx
    split_ifs with hs
    · rw [noutliersBoundary]
      exact not_lt.mpr (le_add_of_nonneg_right (mul_nonneg hs (np_std_r_nonneg xs)))
    · rw [noutliersBoundary]
      exact not_lt.mpr (add_le_of_nonpos_right
        (mul_nonpos_of_nonpos_of_nonneg (le_of_not_le hs) (np_std_r_nonneg xs)))

/-- Claim C10 witness: the theorem applied to the slice 1,1. -/
theorem noutliers_zero_sigma_witness :
    ([1, 1] : List ℝ) ≠ [] ∧
    (noutliersNsigmaMetricRun 0 [1, 1] =
      ([1, 1] : List ℝ).countP (fun x => decide (np_mean_r [1, 1] < x)) ∧
    noutliersBoundary 0 [1, 1] = np_mean_r [1, 1] ∧
    (∀ nSigma : ℝ, ∀ x, x = np_mean_r [1, 1] →
      ¬ (if 0 ≤ nSigma then noutliersBoundary nSigma [1, 1] < x
         else x < noutliersBoundary nSigma [1, 1]))) :=
  ⟨by simp, noutliers_zero_sigma [1, 1] (by simp)⟩

/-- Claim C8: for a non-empty slice MeanAngleMetric.run returns
arctan2(mean sin, mean cos) reduced into the interval from 0 to twopi, except
that a resultant vector shorter than 0.1 overrides the result to pi; the
returned value always lies in that interval. -/
theorem meanAngle_formula (dataSlice : List ℝ) (hne : dataSlice ≠ []) :
    meanAngleMetricRun dataSlice =
      (if Real.sqrt ((np_mean_r (dataSlice.map Real.cos)) ^ 2 +
          (np_mean_r (dataSlice.map Real.sin)) ^ 2) < 0.1 then Real.pi
       else pymod (np_arctan2 (np_mean_r (dataSlice.map Real.sin))
          (np_mean_r (dataSlice.map Real.cos))) twopi) ∧
    0 ≤ meanAngleMetricRun dataSlice ∧ meanAngleMetricRun dataSlice < twopi := by
  refine ⟨rfl, ?_, ?_⟩
  · rw [meanAngleMetricRun]
    split_ifs
    · exact Real.pi_pos.le
    · exact pymod_nonneg _ _ twopi_pos
  · rw [meanAngleMetricRun]
    split_ifs
    · rw [twopi]
      nlinarith [Real.pi_pos]
    · exact pymod_lt _ _ twopi_pos

/-- Claim C8 witness: the theorem applied to the one-element slice 0. -/
theorem meanAngle_formula_witness :
    ([0] : List ℝ) ≠ [] ∧
    (meanAngleMetricRun [0] =
      (if Real.sqrt ((np_mean_r (([0] : List ℝ).map Real.cos)) ^ 2 +
          (np_mean_r (([0] : List ℝ).map Real.sin)) ^ 2) < 0.1 then Real.pi
       else pymod (np_arctan2 (np_mean_r (([0] : List ℝ).map Real.sin))
          (np_mean_r (([0] : List ℝ).map Real.cos))) twopi) ∧
    0 ≤ meanAngleMetricRun [0] ∧ meanAngleMetricRun [0] < twopi) :=
  ⟨by simp, meanAngle_formula [0] (by simp)⟩

end SimsMaf

namespace SimsMaf

/-! ### Toolkit lemmas for listMax, listMin and lastArgmax -/

section MaxToolkit

variable {α : Type _} [LinearOrder α] [Inhabited α]

theorem le_foldl_max_self (a : α) (l : List α) : a ≤ l.foldl max a := by
  induction l generalizing a with
  | nil => exact le_refl a
  | cons b t ih => exact le_trans (le_max_left a b) (ih (max a b))

theorem le_foldl_max_mem (a : α) (l : List α) : ∀ x ∈ l, x ≤ l.foldl max a := by
  induction l generalizing a with
  | nil => intro x hx; exact absurd hx (List.not_mem_nil x)
  | cons b t ih =>
    intro x hx
    rcases List.mem_cons.mp hx with hxb | hxt
    · subst hxb
      exact le_trans (le_max_right a x) (le_foldl_max_self (max a x) t)
    · exact ih (max a b) x hxt

theorem foldl_max_mem (a : α) (l : List α) : l.foldl max a = a ∨ l.foldl max a ∈ l := by
  induction l generalizing a with
  | nil => exact Or.inl rfl
  | cons b t ih =>
    rcases ih (max a b) with h | h
    · rcases max_choice a b with hm | hm
      · exact Or.inl (by rw [List.foldl_cons, h, hm])
      · exact Or.inr (by rw [List.foldl_cons, h, hm]; exact List.mem_cons_self b t)
    · exact Or.inr (List.mem_cons_of_mem b h)

theorem le_listMax {l : List α} : ∀ x ∈ l, x ≤ listMax l := by
  cases l with
  | nil => intro x hx; exact absurd hx (List.not_mem_nil x)
  | cons a t =>
    intro x hx
    rcases List.mem_cons.mp hx with hxa | hxt
    · subst hxa; exact le_foldl_max_self x t
    · exact le_foldl_max_mem a t x hxt

theorem listMax_mem {l : List α} (h : l ≠ []) : listMax l ∈ l := by
  cases l with
  | nil => exact absurd rfl h
  | cons a t =>
    rcases foldl_max_mem a t with h1 | h1
    · rw [listMax, h1]; exact List.mem_cons_self a t
    · rw [listMax]; exact List.mem_cons_of_mem a h1

theorem listMin_le {l : List α} : ∀ x ∈ l, listMin l ≤ x := by
  cases l with
  | nil => intro x hx; exact absurd hx (List.not_mem_nil x)
  | cons a t =>
    intro x hx
    have key : ∀ (b : α) (m : List α), m.foldl min b ≤ b ∧ ∀ y ∈ m, m.foldl min b ≤ y := by
      intro b m
      induction m generalizing b with
      | nil => exact ⟨le_refl b, fun y hy => absurd hy (List.not_mem_nil y)⟩
      | cons c t2 ih =>
        refine ⟨le_trans (ih (min b c)).1 (min_le_left b c), ?_⟩
        intro y hy
        rcases List.mem_cons.mp hy with hyc | hyt
        · subst hyc; exact le_trans (ih (min b y)).1 (min_le_right b y)
        · exact (ih (min b c)).2 y hyt
    rcases List.mem_cons.mp hx with hxa | hxt
    · subst hxa; exact (key x t).1
    · exact (key a t).2 x hxt

theorem listMin_mem {l : List α} (h : l ≠ []) : listMin l ∈ l := by
  cases l with
  | nil => exact absurd rfl h
  | cons a t =>
    have key : ∀ (b : α) (m : List α), m.foldl min b = b ∨ m.foldl min b ∈ m := by
      intro b m
      induction m generalizing b with
      | nil => exact Or.inl rfl
      | cons c t2 ih =>
        rcases ih (min b c) with h1 | h1
        · rcases min_choice b c with hm | hm
          · exact Or.inl (by rw [List.foldl_cons, h1, hm])
          · exact Or.inr (by rw [List.foldl_cons, h1, hm]; exact List.mem_cons_self c t2)
        · exact Or.inr (List.mem_cons_of_mem c h1)
    rcases key a t with h1 | h1
    · rw [listMin, h1]; exact List.mem_cons_self a t
    · rw [listMin]; exact List.mem_cons_of_mem a h1

theorem foldl_max_eq_max (l : List α) (a : α) (h : l ≠ []) :
    l.foldl max a = max a (listMax l) := by
  induction l generalizing a with
  | nil => exact absurd rfl h
  | cons b t ih =>
    cases t with
    | nil => simp [listMax]
    | cons c t2 =>
      have h2 : (c :: t2) ≠ [] := List.cons_ne_nil c t2
      have lhs : (b :: c :: t2).foldl max a = max (max a b) (listMax (c :: t2)) := by
        rw [List.foldl_cons]; exact ih (max a b) h2
      have rmax : listMax (b :: c :: t2) = max b (listMax (c :: t2)) := by
        rw [listMax]; exact ih b h2
      rw [lhs, rmax, max_assoc]

theorem listMax_cons (a : α) (l : List α) (h : l ≠ []) :
    listMax (a :: l) = max a (listMax l) := by
  rw [listMax]; exact foldl_max_eq_max l a h

theorem lastArgmax_lt_length {l : List α} (h : l ≠ []) : lastArgmax l < l.length := by
  induction l with
  | nil => exact absurd rfl h
  | cons a t ih =>
    rw [lastArgmax]
    by_cases ht : t = []
    · rw [if_pos ht]; simp
    · rw [if_neg ht]
      by_cases hm : listMax t < a
      · rw [if_pos hm]; simp
      · rw [if_neg hm]
        have := ih ht
        simp only [List.length_cons]
        omega

theorem getD_lastArgmax {l : List α} (h : l ≠ []) (d : α) :
    l.getD (lastArgmax l) d = listMax l := by
  induction l with
  | nil => exact absurd rfl h
  | cons a t ih =>
    rw [lastArgmax]
    by_cases ht : t = []
    · subst ht; rw [if_pos rfl]; simp [listMax]
    · rw [if_neg ht, listMax_cons a t ht]
      by_cases hm : listMax t < a
      · rw [if_pos hm]
        simp only [List.getD_cons_zero]
        exact (max_eq_left hm.le).symm
      · rw [if_neg hm, Nat.add_comm 1 (lastArgmax t), List.getD_cons_succ]
        rw [ih ht]
        exact (max_eq_right (not_lt.mp hm)).symm

theorem getD_gt_lastArgmax {l : List α} (d : α) :
    ∀ j, lastArgmax l < j → j < l.length → l.getD j d < listMax l := by
  induction l with
  | nil => intro j _ hj; exact absurd hj (by simp)
  | cons a t ih =>
    intro j hj hjlen
    rw [lastArgmax] at hj
    by_cases ht : t = []
    · subst ht
      rw [if_pos rfl] at hj
      simp only [List.length_cons, List.length_nil] at hjlen
      omega
    · rw [if_neg ht] at hj
      rw [listMax_cons a t ht]
      by_cases hm : listMax t < a
      · rw [if_pos hm] at hj
        obtain ⟨j2, rfl⟩ : ∃ j2, j = j2 + 1 := ⟨j - 1, by omega⟩
        rw [List.getD_cons_succ]
        have hj2len : j2 < t.length := by
          simp only [List.length_cons] at hjlen; omega
        have hmem : t.getD j2 d ∈ t := by
          rw [List.getD_eq_getElem t d hj2len]
          exact List.getElem_mem hj2len
        calc t.getD j2 d ≤ listMax t := le_listMax _ hmem
          _ < a := hm
          _ ≤ max a (listMax t) := le_max_left _ _
      · rw [if_neg hm] at hj
        obtain ⟨j2, rfl⟩ : ∃ j2, j = j2 + 1 := ⟨j - 1, by omega⟩
        rw [List.getD_cons_succ]
        have hj2len : j2 < t.length := by
          simp only [List.length_cons] at hjlen; omega
        have := ih j2 (by omega) hj2len
        calc t.getD j2 d < listMax t := this
          _ ≤ max a (listMax t) := le_max_right _ _

end MaxToolkit

end SimsMaf

namespace SimsMaf

/-! ### Toolkit lemmas for np_diff, headI, getLastD, take and drop -/

theorem np_diff_length {α : Type _} [Sub α] (xs : List α) :
    (np_diff xs).length = xs.length - 1 := by
  rw [np_diff, List.length_zipWith, List.length_tail]
  omega

theorem np_diff_cons₂ (a b : ℝ) (t : List ℝ) :
    np_diff (a :: b :: t) = (b - a) :: np_diff (b :: t) := rfl

theorem np_diff_map_add (c : ℝ) (xs : List ℝ) :
    np_diff (xs.map (fun x => x + c)) = np_diff xs := by
  induction xs with
  | nil => rfl
  | cons a t ih =>
    cases t with
    | nil => rfl
    | cons b t2 =>
      simp only [List.map_cons] at ih ⊢
      rw [np_diff_cons₂, np_diff_cons₂, ih]
      congr 1
      ring

theorem getLastD_indep {α : Type _} (l : List α) (h : l ≠ []) (d d2 : α) :
    l.getLastD d = l.getLastD d2 := by
  cases l with
  | nil => exact absurd rfl h
  | cons a t => rw [List.getLastD_cons, List.getLastD_cons]

theorem getLastD_mem {α : Type _} (l : List α) (h : l ≠ []) (d : α) :
    l.getLastD d ∈ l := by
  induction l generalizing d with
  | nil => exact absurd rfl h
  | cons a t ih =>
    cases ht : t with
    | nil => subst ht; simp
    | cons b t2 =>
      rw [List.getLastD_cons]
      subst ht
      exact List.mem_cons_of_mem a (ih (List.cons_ne_nil b t2) a)

theorem headI_append {α : Type _} [Inhabited α] (A B : List α) (h : A ≠ []) :
    (A ++ B).headI = A.headI := by
  cases A with
  | nil => exact absurd rfl h
  | cons a t => rfl

theorem getLastD_append_right {α : Type _} (A B : List α) (h : B ≠ []) (d : α) :
    (A ++ B).getLastD d = B.getLastD d := by
  induction A with
  | nil => rfl
  | cons a A2 ih =>
    rw [List.cons_append, List.getLastD_cons]
    have hne : A2 ++ B ≠ [] := by
      intro hc
      exact h (List.append_eq_nil.mp hc).2
    rw [getLastD_indep (A2 ++ B) hne a d]
    exact ih

theorem headI_take {α : Type _} [Inhabited α] (l : List α) (k : ℕ) (h : l ≠ []) :
    (l.take (k + 1)).headI = l.headI := by
  cases l with
  | nil => exact absurd rfl h
  | cons a t => rfl

theorem getD_zero_headI (l : List ℝ) (h : l ≠ []) : l.getD 0 0 = l.headI := by
  cases l with
  | nil => exact absurd rfl h
  | cons a t => rfl

theorem headI_drop (l : List ℝ) : ∀ k, k < l.length → (l.drop k).headI = l.getD k 0 := by
  induction l with
  | nil => intro k hk; exact absurd hk (by simp)
  | cons a t ih =>
    intro k hk
    cases k with
    | zero => rfl
    | succ k2 =>
      rw [List.drop_succ_cons, List.getD_cons_succ]
      exact ih k2 (by simp only [List.length_cons] at hk; omega)

theorem getLastD_take (l : List ℝ) : ∀ k, k < l.length →
    (l.take (k + 1)).getLastD 0 = l.getD k 0 := by
  induction l with
  | nil => intro k hk; exact absurd hk (by simp)
  | cons a t ih =>
    intro k hk
    cases k with
    | zero => simp
    | succ k2 =>
      have hk2 : k2 < t.length := by simp only [List.length_cons] at hk; omega
      rw [List.take_succ_cons, List.getLastD_cons, List.getD_cons_succ]
      have hne : t.take (k2 + 1) ≠ [] := by
        intro hc
        have := congrArg List.length hc
        simp only [List.length_take, List.length_nil] at this
        omega
      rw [getLastD_indep _ hne a 0]
      exact ih k2 hk2

theorem getLastD_drop (l : List ℝ) : ∀ k, k < l.length →
    (l.drop k).getLastD 0 = l.getLastD 0 := by
  induction l with
  | nil => intro k hk; exact absurd hk (by simp)
  | cons a t ih =>
    intro k hk
    cases k with
    | zero => rfl
    | succ k2 =>
      have hk2 : k2 < t.length := by simp only [List.length_cons] at hk; omega
      have hne : t ≠ [] := by
        intro hc; subst hc; exact absurd hk2 (by simp)
      rw [List.drop_succ_cons, List.getLastD_cons, ih k2 hk2]
      exact getLastD_indep t hne 0 a

theorem np_diff_append (A B : List ℝ) (hA : A ≠ []) (hB : B ≠ []) :
    np_diff (A ++ B) = np_diff A ++ (B.headI - A.getLastD 0) :: np_diff B := by
  induction A with
  | nil => exact absurd rfl hA
  | cons a A2 ih =>
    cases A2 with
    | nil =>
      cases B with
      | nil => exact absurd rfl hB
      | cons b t => rfl
    | cons a2 A3 =>
      have h2 : (a2 :: A3) ≠ [] := List.cons_ne_nil a2 A3
      have e1 : np_diff ((a :: a2 :: A3) ++ B) = (a2 - a) :: np_diff ((a2 :: A3) ++ B) := rfl
      have e2 : np_diff (a :: a2 :: A3) = (a2 - a) :: np_diff (a2 :: A3) := rfl
      have e3 : (a :: a2 :: A3).getLastD 0 = (a2 :: A3).getLastD 0 := by
        rw [List.getLastD_cons]
        exact getLastD_indep (a2 :: A3) h2 a 0
      rw [e1, ih h2, e2, e3, List.cons_append]

theorem np_diff_take (xs : List ℝ) : ∀ k, np_diff (xs.take (k + 1)) = (np_diff xs).take k := by
  induction xs with
  | nil => intro k; simp [np_diff]
  | cons a t ih =>
    intro k
    cases k with
    | zero =>
      cases t with
      | nil => rfl
      | cons b t2 => rfl
    | succ k2 =>
      cases t with
      | nil =>
        rw [List.take_of_length_le (by simp)]
        have e0 : np_diff ([a] : List ℝ) = [] := rfl
        rw [e0, List.take_nil]
      | cons b t2 =>
        have e1 : np_diff ((a :: b :: t2).take (k2 + 2)) =
            (b - a) :: np_diff ((b :: t2).take (k2 + 1)) := rfl
        have e2 : (np_diff (a :: b :: t2)).take (k2 + 1) =
            (b - a) :: (np_diff (b :: t2)).take k2 := rfl
        rw [e1, e2, ih k2]

theorem np_diff_drop (xs : List ℝ) : ∀ k, np_diff (xs.drop k) = (np_diff xs).drop k := by
  induction xs with
  | nil => intro k; cases k <;> rfl
  | cons a t ih =>
    intro k
    cases k with
    | zero => rfl
    | succ k2 =>
      cases t with
      | nil =>
        have e0 : ([a] : List ℝ).drop (k2 + 1) = [] := by simp
        have e0b : np_diff ([a] : List ℝ) = [] := rfl
        rw [e0, e0b, List.drop_nil]
        rfl
      | cons b t2 =>
        have e1 : np_diff ((a :: b :: t2).drop (k2 + 1)) = np_diff ((b :: t2).drop k2) := rfl
        have e2 : (np_diff (a :: b :: t2)).drop (k2 + 1) = (np_diff (b :: t2)).drop k2 := rfl
        rw [e1, e2, ih k2]

theorem np_diff_getD (xs : List ℝ) (i : ℕ) (h : i + 1 < xs.length) :
    (np_diff xs).getD i 0 = xs.getD (i + 1) 0 - xs.getD i 0 := by
  induction xs generalizing i with
  | nil => exact absurd h (by simp)
  | cons a t ih =>
    cases t with
    | nil =>
      simp only [List.length_cons, List.length_nil] at h
      omega
    | cons b t2 =>
      cases i with
      | zero => rfl
      | succ i2 =>
        have h2 : i2 + 1 < (b :: t2).length := by
          simp only [List.length_cons] at h ⊢; omega
        rw [np_diff_cons₂, List.getD_cons_succ, List.getD_cons_succ, List.getD_cons_succ]
        exact ih i2 h2

end SimsMaf

namespace SimsMaf

/-! ### Toolkit lemmas for sorted lists -/

theorem sorted_headI_le (l : List ℝ) (hs : l.Sorted (fun a b => a ≤ b)) :
    ∀ x ∈ l, l.headI ≤ x := by
  cases l with
  | nil => intro x hx; exact absurd hx (List.not_mem_nil x)
  | cons a t =>
    intro x hx
    rcases List.mem_cons.mp hx with hxa | hxt
    · subst hxa; exact le_refl x
    · exact List.rel_of_sorted_cons hs x hxt

theorem sorted_le_getLastD (l : List ℝ) (hs : l.Sorted (fun a b => a ≤ b)) :
    ∀ x ∈ l, x ≤ l.getLastD 0 := by
  induction l with
  | nil => intro x hx; exact absurd hx (List.not_mem_nil x)
  | cons a t ih =>
    intro x hx
    cases ht : t with
    | nil =>
      subst ht
      rcases List.mem_cons.mp hx with hxa | hxt
      · subst hxa; simp
      · exact absurd hxt (List.not_mem_nil x)
    | cons b t2 =>
      subst ht
      have hne : (b :: t2) ≠ [] := List.cons_ne_nil b t2
      rw [List.getLastD_cons, getLastD_indep _ hne a 0]
      rcases List.mem_cons.mp hx with hxa | hxt
      · subst hxa
        exact List.rel_of_sorted_cons hs _ (getLastD_mem _ hne 0)
      · exact ih hs.of_cons x hxt

theorem sorted_take_le (l : List ℝ) (hs : l.Sorted (fun a b => a ≤ b)) :
    ∀ k, k < l.length → ∀ x ∈ l.take (k + 1), x ≤ l.getD k 0 := by
  induction l with
  | nil => intro k hk; exact absurd hk (by simp)
  | cons a t ih =>
    intro k hk x hx
    cases k with
    | zero =>
      rw [List.take_succ_cons, List.take_zero] at hx
      rcases List.mem_cons.mp hx with hxa | hxt
      · subst hxa; exact le_refl x
      · exact absurd hxt (List.not_mem_nil x)
    | succ k2 =>
      have hk2 : k2 < t.length := by simp only [List.length_cons] at hk; omega
      rw [List.take_succ_cons] at hx
      rw [List.getD_cons_succ]
      rcases List.mem_cons.mp hx with hxa | hxt
      · subst hxa
        have hmem : t.getD k2 0 ∈ t := by
          rw [List.getD_eq_getElem t 0 hk2]
          exact List.getElem_mem hk2
        exact List.rel_of_sorted_cons hs _ hmem
      · exact ih hs.of_cons k2 hk2 x hxt

theorem sorted_drop_le (l : List ℝ) (hs : l.Sorted (fun a b => a ≤ b)) :
    ∀ k, k < l.length → ∀ x ∈ l.drop k, l.getD k 0 ≤ x := by
  induction l with
  | nil => intro k hk; exact absurd hk (by simp)
  | cons a t ih =>
    intro k hk x hx
    cases k with
    | zero =>
      rw [List.drop_zero] at hx
      rw [List.getD_cons_zero]
      rcases List.mem_cons.mp hx with hxa | hxt
      · subst hxa; exact le_refl x
      · exact List.rel_of_sorted_cons hs x hxt
    | succ k2 =>
      have hk2 : k2 < t.length := by simp only [List.length_cons] at hk; omega
      rw [List.drop_succ_cons] at hx
      rw [List.getD_cons_succ]
      exact ih hs.of_cons k2 hk2 x hx

theorem sorted_map_add (l : List ℝ) (c : ℝ) (hs : l.Sorted (fun a b => a ≤ b)) :
    (l.map (fun x => x + c)).Sorted (fun a b => a ≤ b) :=
  List.Pairwise.map (fun x => x + c) (fun a b hab => add_le_add_right hab c) hs

theorem sorted_sublist_take (l : List ℝ) (hs : l.Sorted (fun a b => a ≤ b)) (k : ℕ) :
    (l.take k).Sorted (fun a b => a ≤ b) :=
  List.Pairwise.sublist (List.take_sublist k l) hs

theorem sorted_sublist_drop (l : List ℝ) (hs : l.Sorted (fun a b => a ≤ b)) (k : ℕ) :
    (l.drop k).Sorted (fun a b => a ≤ b) :=
  List.Pairwise.sublist (List.drop_sublist k l) hs

theorem pymod_of_nonneg_lt (x b : ℝ) (h0 : 0 ≤ x) (hb : x < b) : pymod x b = x := by
  have hbpos : 0 < b := lt_of_le_of_lt h0 hb
  have hfloor : ⌊x / b⌋ = 0 := by
    rw [Int.floor_eq_zero_iff]
    constructor
    · exact div_nonneg h0 hbpos.le
    · rw [div_lt_one hbpos]; exact hb
  rw [pymod, hfloor]
  simp

theorem pymod_of_neg_ge (x b : ℝ) (hge : -b ≤ x) (hx : x < 0) : pymod x b = x + b := by
  have hbpos : 0 < b := by linarith
  have hfloor : ⌊x / b⌋ = -1 := by
    rw [Int.floor_eq_iff]
    constructor
    · push_cast
      rw [le_div_iff₀ hbpos]
      linarith
    · push_cast
      have : x / b < 0 := div_neg_of_neg_of_pos hx hbpos
      linarith
  rw [pymod, hfloor]
  push_cast
  ring

end SimsMaf

namespace SimsMaf

/-! ### Structural lemmas about the gap sequence and the rotation angle -/

theorem headI_mem {α : Type _} [Inhabited α] (l : List α) (h : l ≠ []) : l.headI ∈ l := by
  cases l with
  | nil => exact absurd rfl h
  | cons a t => exact List.mem_cons_self a t

theorem headI_map_add (l : List ℝ) (c : ℝ) (h : l ≠ []) :
    (l.map (fun x => x + c)).headI = l.headI + c := by
  cases l with
  | nil => exact absurd rfl h
  | cons a t => rfl

theorem getLastD_map_add (l : List ℝ) (c : ℝ) (h : l ≠ []) :
    (l.map (fun x => x + c)).getLastD 0 = l.getLastD 0 + c := by
  induction l with
  | nil => exact absurd rfl h
  | cons a t ih =>
    cases ht : t with
    | nil => subst ht; simp
    | cons b t2 =>
      subst ht
      rw [List.map_cons, List.getLastD_cons, List.getLastD_cons]
      have hne : (b :: t2) ≠ [] := List.cons_ne_nil b t2
      have hne2 : ((b :: t2).map (fun x => x + c)) ≠ [] := by simp
      rw [getLastD_indep _ hne2 (a + c) 0, getLastD_indep _ hne a 0]
      exact ih hne

section RotateSetup

variable (angles : List ℝ)

theorem np_sort_ne_nil (h : angles ≠ []) : np_sort angles ≠ [] := by
  intro hc
  have := congrArg List.length hc
  rw [length_np_sort] at this
  exact h (List.length_eq_zero.mp this)

theorem mem_np_sort_range (hrange : ∀ a ∈ angles, 0 ≤ a ∧ a < twopi) :
    ∀ x ∈ np_sort angles, 0 ≤ x ∧ x < twopi := fun x hx =>
  hrange x ((perm_np_sort angles).subset hx)

theorem startToEnd_pos (h : angles ≠ []) (hrange : ∀ a ∈ angles, 0 ≤ a ∧ a < twopi) :
    0 < startToEnd angles := by
  have hs := np_sort_ne_nil angles h
  have hlast := (mem_np_sort_range angles hrange) _ (getLastD_mem (np_sort angles) hs 0)
  have hhead := (mem_np_sort_range angles hrange) _ (headI_mem (np_sort angles) hs)
  rw [startToEnd]
  linarith [hlast.2, hhead.1]

theorem gapSeq_length (h : angles ≠ []) : (gapSeq angles).length = angles.length := by
  rw [gapSeq, List.length_append, np_diff_length, length_np_sort]
  have : angles.length ≠ 0 := fun hc => h (List.length_eq_zero.mp hc)
  simp only [List.length_cons, List.length_nil]
  omega

theorem gapSeq_ne_nil : gapSeq angles ≠ [] := by
  rw [gapSeq]
  intro hc
  exact absurd (List.append_eq_nil.mp hc).2 (List.cons_ne_nil _ _)

theorem startToEnd_mem_gapSeq : startToEnd angles ∈ gapSeq angles := by
  rw [gapSeq]
  exact List.mem_append_right _ (List.mem_singleton.mpr rfl)

theorem startToEnd_le_listMax : startToEnd angles ≤ listMax (gapSeq angles) :=
  le_listMax _ (startToEnd_mem_gapSeq angles)

theorem gapSeq_getD_last (h : angles ≠ []) :
    (gapSeq angles).getD (angles.length - 1) 0 = startToEnd angles := by
  have hlen : (np_diff (np_sort angles)).length = angles.length - 1 := by
    rw [np_diff_length, length_np_sort]
  rw [gapSeq, List.getD_append_right _ _ _ _ (le_of_eq hlen), hlen]
  simp

theorem gapSeq_getD_mid (m : ℕ) (hm : m + 1 < angles.length) :
    (gapSeq angles).getD m 0 =
      (np_sort angles).getD (m + 1) 0 - (np_sort angles).getD m 0 := by
  have hlen : (np_diff (np_sort angles)).length = angles.length - 1 := by
    rw [np_diff_length, length_np_sort]
  rw [gapSeq, List.getD_append _ _ _ _ (by omega)]
  exact np_diff_getD (np_sort angles) m (by rw [length_np_sort]; omega)

theorem lastArgmax_gapSeq_lt (h : angles ≠ []) :
    lastArgmax (gapSeq angles) < angles.length := by
  have := lastArgmax_lt_length (gapSeq_ne_nil angles)
  rwa [gapSeq_length angles h] at this

end RotateSetup

end SimsMaf

namespace SimsMaf

/-! ### The rotated sequence puts the largest gap at the wraparound position -/

theorem rotated_gap_bound (angles : List ℝ) (hne : angles ≠ [])
    (hrange : ∀ a ∈ angles, 0 ≤ a ∧ a < twopi) :
    ∀ g ∈ np_diff (np_sort (rotatedAngles angles)),
      g ≤ twopi - (np_sort (rotatedAngles angles)).getLastD 0
        + (np_sort (rotatedAngles angles)).headI := by
  have hsNe : np_sort angles ≠ [] := np_sort_ne_nil angles hne
  have hsSorted : (np_sort angles).Sorted (fun a b => a ≤ b) := sorted_np_sort angles
  have hsPerm : (np_sort angles).Perm angles := perm_np_sort angles
  have hsLen : (np_sort angles).length = angles.length := length_np_sort angles
  have hrangeS : ∀ x ∈ np_sort angles, 0 ≤ x ∧ x < twopi := mem_np_sort_range angles hrange
  have hnlen : 1 ≤ angles.length := List.length_pos.mpr hne
  have hw : 0 < startToEnd angles := startToEnd_pos angles hne hrange
  have hmlt : lastArgmax (gapSeq angles) < angles.length := lastArgmax_gapSeq_lt angles hne
  have hdmax : (gapSeq angles).getD (lastArgmax (gapSeq angles)) 0 = listMax (gapSeq angles) :=
    getD_lastArgmax (gapSeq_ne_nil angles) 0
  have hwle : startToEnd angles ≤ listMax (gapSeq angles) := startToEnd_le_listMax angles
  by_cases hcase : lastArgmax (gapSeq angles) = angles.length - 1
  · -- the last maximal gap is the wraparound gap: rotation is the smallest angle
    have hr : rotAngle angles = (np_sort angles).headI := by
      rw [rotAngle, if_pos hcase]
    have hrrange : 0 ≤ rotAngle angles ∧ rotAngle angles < twopi := by
      rw [hr]; exact hrangeS _ (headI_mem _ hsNe)
    have hfa : ∀ a ∈ angles, pymod (a - rotAngle angles) twopi = a + (-(rotAngle angles)) := by
      intro a ha
      have haS : a ∈ np_sort angles := hsPerm.mem_iff.mpr ha
      have h1 : rotAngle angles ≤ a := hr ▸ sorted_headI_le _ hsSorted a haS
      have h2 := hrange a ha
      rw [pymod_of_nonneg_lt (a - rotAngle angles) twopi (by linarith)
        (by linarith [hrrange.1, h2.2])]
      ring
    have hmap : rotatedAngles angles = angles.map (fun x => x + (-(rotAngle angles))) := by
      rw [rotatedAngles]
      exact List.map_congr_left hfa
    have hsortEq : np_sort (rotatedAngles angles) =
        (np_sort angles).map (fun x => x + (-(rotAngle angles))) := by
      refine List.eq_of_perm_of_sorted ?_ (sorted_np_sort _)
        (sorted_map_add _ _ hsSorted)
      rw [hmap]
      exact (perm_np_sort _).trans ((hsPerm.map _).symm)
    have hmaxw : listMax (gapSeq angles) = startToEnd angles := by
      rw [← hdmax, hcase]
      exact gapSeq_getD_last angles hne
    intro g hg
    rw [hsortEq] at hg ⊢
    rw [np_diff_map_add] at hg
    rw [headI_map_add _ _ hsNe, getLastD_map_add _ _ hsNe]
    have hgd : g ∈ gapSeq angles := by
      rw [gapSeq]
      exact List.mem_append_left _ hg
    have hgle : g ≤ listMax (gapSeq angles) := le_listMax g hgd
    rw [hmaxw, startToEnd] at hgle
    linarith
  · -- the last maximal gap is interior: rotation is the angle just after it
    have hmlt1 : lastArgmax (gapSeq angles) + 1 < angles.length := by omega
    have hr : rotAngle angles = (np_sort angles).getD (lastArgmax (gapSeq angles) + 1) 0 := by
      rw [rotAngle, if_neg hcase]
    have hgm : (gapSeq angles).getD (lastArgmax (gapSeq angles)) 0 =
        (np_sort angles).getD (lastArgmax (gapSeq angles) + 1) 0 -
        (np_sort angles).getD (lastArgmax (gapSeq angles)) 0 :=
      gapSeq_getD_mid angles (lastArgmax (gapSeq angles)) hmlt1
    have hmax_eq : listMax (gapSeq angles) =
        (np_sort angles).getD (lastArgmax (gapSeq angles) + 1) 0 -
        (np_sort angles).getD (lastArgmax (gapSeq angles)) 0 := by
      rw [← hdmax, hgm]
    have hmaxpos : 0 < listMax (gapSeq angles) := lt_of_lt_of_le hw hwle
    have hlt : (np_sort angles).getD (lastArgmax (gapSeq angles)) 0 < rotAngle angles := by
      rw [hr]; linarith [hmax_eq ▸ hmaxpos]
    have hrmem : rotAngle angles ∈ np_sort angles := by
      rw [hr, List.getD_eq_getElem _ 0 (by rw [hsLen]; omega)]
      exact List.getElem_mem _
    have hrrange := hrangeS _ hrmem
    have htakeNe : (np_sort angles).take (lastArgmax (gapSeq angles) + 1) ≠ [] := by
      intro hc
      have := congrArg List.length hc
      simp only [List.length_take, List.length_nil, hsLen] at this
      omega
    have hdropNe : (np_sort angles).drop (lastArgmax (gapSeq angles) + 1) ≠ [] := by
      intro hc
      have := congrArg List.length hc
      simp only [List.length_drop, List.length_nil, hsLen] at this
      omega
    have htake_lt : ∀ e ∈ (np_sort angles).take (lastArgmax (gapSeq angles) + 1),
        e < rotAngle angles := by
      intro e he
      have h1 : e ≤ (np_sort angles).getD (lastArgmax (gapSeq angles)) 0 :=
        sorted_take_le _ hsSorted _ (by rw [hsLen]; omega) e he
      linarith
    have hdrop_ge : ∀ e ∈ (np_sort angles).drop (lastArgmax (gapSeq angles) + 1),
        rotAngle angles ≤ e := by
      intro e he
      rw [hr]
      exact sorted_drop_le _ hsSorted _ (by rw [hsLen]; omega) e he
    have hf_take : ∀ e ∈ (np_sort angles).take (lastArgmax (gapSeq angles) + 1),
        pymod (e - rotAngle angles) twopi = e + (twopi - rotAngle angles) := by
      intro e he
      have heR := hrangeS e (List.take_subset _ _ he)
      rw [pymod_of_neg_ge (e - rotAngle angles) twopi (by linarith [hrrange.2, heR.1])
        (by linarith [htake_lt e he])]
      ring
    have hf_drop : ∀ e ∈ (np_sort angles).drop (lastArgmax (gapSeq angles) + 1),
        pymod (e - rotAngle angles) twopi = e + (-(rotAngle angles)) := by
      intro e he
      have heR := hrangeS e (List.drop_subset _ _ he)
      rw [pymod_of_nonneg_lt (e - rotAngle angles) twopi (by linarith [hdrop_ge e he])
        (by linarith [heR.2, hrrange.1])]
      ring
    have hANe : ((np_sort angles).drop (lastArgmax (gapSeq angles) + 1)).map
        (fun x => x + (-(rotAngle angles))) ≠ [] := by
      simpa using hdropNe
    have hBNe : ((np_sort angles).take (lastArgmax (gapSeq angles) + 1)).map
        (fun x => x + (twopi - rotAngle angles)) ≠ [] := by
      simpa using htakeNe
    have hsplit : (np_sort angles).map (fun a => pymod (a - rotAngle angles) twopi) =
        ((np_sort angles).take (lastArgmax (gapSeq angles) + 1)).map
          (fun x => x + (twopi - rotAngle angles)) ++
        ((np_sort angles).drop (lastArgmax (gapSeq angles) + 1)).map
          (fun x => x + (-(rotAngle angles))) := by
      conv_lhs => rw [← List.take_append_drop (lastArgmax (gapSeq angles) + 1) (np_sort angles)]
      rw [List.map_append]
      congr 1
      · exact List.map_congr_left hf_take
      · exact List.map_congr_left hf_drop
    have hperm : (np_sort (rotatedAngles angles)).Perm
        (((np_sort angles).drop (lastArgmax (gapSeq angles) + 1)).map
          (fun x => x + (-(rotAngle angles))) ++
         ((np_sort angles).take (lastArgmax (gapSeq angles) + 1)).map
          (fun x => x + (twopi - rotAngle angles))) := by
      refine (perm_np_sort _).trans ?_
      rw [rotatedAngles]
      have p1 : (angles.map (fun a => pymod (a - rotAngle angles) twopi)).Perm
          ((np_sort angles).map (fun a => pymod (a - rotAngle angles) twopi)) :=
        (hsPerm.map _).symm
      rw [hsplit] at p1
      exact p1.trans List.perm_append_comm
    have hLsorted : (((np_sort angles).drop (lastArgmax (gapSeq angles) + 1)).map
          (fun x => x + (-(rotAngle angles))) ++
        ((np_sort angles).take (lastArgmax (gapSeq angles) + 1)).map
          (fun x => x + (twopi - rotAngle angles))).Sorted (fun a b => a ≤ b) := by
      refine List.pairwise_append.mpr ⟨sorted_map_add _ _ (sorted_sublist_drop _ hsSorted _),
        sorted_map_add _ _ (sorted_sublist_take _ hsSorted _), ?_⟩
      intro x hx y hy
      obtain ⟨e1, he1, rfl⟩ := List.mem_map.mp hx
      obtain ⟨e2, he2, rfl⟩ := List.mem_map.mp hy
      have h1 : e1 ≤ (np_sort angles).getLastD 0 :=
        sorted_le_getLastD _ hsSorted e1 (List.drop_subset _ _ he1)
      have h2 : (np_sort angles).headI ≤ e2 :=
        sorted_headI_le _ hsSorted e2 (List.take_subset _ _ he2)
      have h3 := hw
      rw [startToEnd] at h3
      linarith
    have hsortEq : np_sort (rotatedAngles angles) =
        ((np_sort angles).drop (lastArgmax (gapSeq angles) + 1)).map
          (fun x => x + (-(rotAngle angles))) ++
        ((np_sort angles).take (lastArgmax (gapSeq angles) + 1)).map
          (fun x => x + (twopi - rotAngle angles)) :=
      List.eq_of_perm_of_sorted hperm (sorted_np_sort _) hLsorted
    have hdiffA : np_diff (((np_sort angles).drop (lastArgmax (gapSeq angles) + 1)).map
        (fun x => x + (-(rotAngle angles)))) =
        (np_diff (np_sort angles)).drop (lastArgmax (gapSeq angles) + 1) := by
      rw [np_diff_map_add, np_diff_drop]
    have hdiffB : np_diff (((np_sort angles).take (lastArgmax (gapSeq angles) + 1)).map
        (fun x => x + (twopi - rotAngle angles))) =
        (np_diff (np_sort angles)).take (lastArgmax (gapSeq angles)) := by
      rw [np_diff_map_add, np_diff_take]
    have hheadB : (((np_sort angles).take (lastArgmax (gapSeq angles) + 1)).map
        (fun x => x + (twopi - rotAngle angles))).headI =
        (np_sort angles).headI + (twopi - rotAngle angles) := by
      rw [headI_map_add _ _ htakeNe, headI_take _ _ hsNe]
    have hlastA : (((np_sort angles).drop (lastArgmax (gapSeq angles) + 1)).map
        (fun x => x + (-(rotAngle angles)))).getLastD 0 =
        (np_sort angles).getLastD 0 + (-(rotAngle angles)) := by
      rw [getLastD_map_add _ _ hdropNe, getLastD_drop _ _ (by rw [hsLen]; omega)]
    have hheadL : (np_sort (rotatedAngles angles)).headI =
        (np_sort angles).getD (lastArgmax (gapSeq angles) + 1) 0 + (-(rotAngle angles)) := by
      rw [hsortEq, headI_append _ _ hANe, headI_map_add _ _ hdropNe,
        headI_drop _ _ (by rw [hsLen]; omega)]
    have hlastL : (np_sort (rotatedAngles angles)).getLastD 0 =
        (np_sort angles).getD (lastArgmax (gapSeq angles)) 0 + (twopi - rotAngle angles) := by
      rw [hsortEq, getLastD_append_right _ _ hBNe, getLastD_map_add _ _ htakeNe,
        getLastD_take _ _ (by rw [hsLen]; omega)]
    intro g hg
    rw [hsortEq, np_diff_append _ _ hANe hBNe] at hg
    rw [hheadL, hlastL]
    have hgle : g ≤ listMax (gapSeq angles) := by
      rcases List.mem_append.mp hg with hg1 | hg2
      · rw [hdiffA] at hg1
        have hmem : g ∈ np_diff (np_sort angles) := List.drop_subset _ _ hg1
        have hmemd : g ∈ gapSeq angles := by
          rw [gapSeq]; exact List.mem_append_left _ hmem
        exact le_listMax g hmemd
      · rcases List.mem_cons.mp hg2 with hgw | hg3
        · have hgw2 : g = startToEnd angles := by
            rw [hgw, hheadB, hlastA, startToEnd]
            ring
          rw [hgw2]
          exact hwle
        · rw [hdiffB] at hg3
          have hmem : g ∈ np_diff (np_sort angles) := List.take_subset _ _ hg3
          have hmemd : g ∈ gapSeq angles := by
            rw [gapSeq]; exact List.mem_append_left _ hmem
          exact le_listMax g hmemd
    rw [hmax_eq] at hgle
    linarith

end SimsMaf

namespace SimsMaf

/-! ### Claim theorems for the angle rotation utility -/

/-- Claim C4: on a non-empty input of angles in the interval from 0 to twopi,
_rotateAngles succeeds; every rotated angle lies in that interval; the gap
sequence attains its maximum at the chosen index, every later gap is strictly
smaller (the last maximum is chosen on ties), the rotation offset is the
sorted angle cyclically following the largest gap, and every consecutive gap
of the sorted rotated sequence is at most its wraparound gap. -/
theorem rotateAngles_invariants (angles : List ℝ) (hne : angles ≠ [])
    (hrange : ∀ a ∈ angles, 0 ≤ a ∧ a < twopi) :
    rotateAngles angles = .ok (rotAngle angles, rotatedAngles angles) ∧
    (∀ x ∈ rotatedAngles angles, 0 ≤ x ∧ x < twopi) ∧
    (gapSeq angles).getD (lastArgmax (gapSeq angles)) 0 = listMax (gapSeq angles) ∧
    (∀ j, lastArgmax (gapSeq angles) < j → j < (gapSeq angles).length →
      (gapSeq angles).getD j 0 < listMax (gapSeq angles)) ∧
    rotAngle angles =
      (np_sort angles).getD ((lastArgmax (gapSeq angles) + 1) % angles.length) 0 ∧
    (∀ g ∈ np_diff (np_sort (rotatedAngles angles)),
      g ≤ twopi - (np_sort (rotatedAngles angles)).getLastD 0
        + (np_sort (rotatedAngles angles)).headI) := by
  have hw := startToEnd_pos angles hne hrange
  refine ⟨?_, ?_, getD_lastArgmax (gapSeq_ne_nil angles) 0,
    fun j hj hjlen => getD_gt_lastArgmax 0 j hj hjlen, ?_,
    rotated_gap_bound angles hne hrange⟩
  · rw [rotateAngles, if_neg (fun hc => hne (List.length_eq_zero.mp hc)),
      if_neg (not_lt.mpr hw.le)]
  · intro x hx
    rw [rotatedAngles] at hx
    obtain ⟨a, _, rfl⟩ := List.mem_map.mp hx
    exact ⟨pymod_nonneg _ _ twopi_pos, pymod_lt _ _ twopi_pos⟩
  · by_cases hcase : lastArgmax (gapSeq angles) = angles.length - 1
    · have hlen1 : 1 ≤ angles.length := List.length_pos.mpr hne
      rw [rotAngle, if_pos hcase, hcase, Nat.sub_add_cancel hlen1, Nat.mod_self]
      exact (getD_zero_headI _ (np_sort_ne_nil angles hne)).symm
    · have hmlt1 : lastArgmax (gapSeq angles) + 1 < angles.length := by
        have := lastArgmax_gapSeq_lt angles hne
        omega
      rw [rotAngle, if_neg hcase, Nat.mod_eq_of_lt hmlt1]

/-- Claim C4 witness: the theorem applied to the one-element list 0, whose
angle lies in the required range. -/
theorem rotateAngles_invariants_witness :
    (([0] : List ℝ) ≠ []) ∧ (∀ a ∈ ([0] : List ℝ), 0 ≤ a ∧ a < twopi) ∧
    (rotateAngles [0] = .ok (rotAngle [0], rotatedAngles [0]) ∧
    (∀ x ∈ rotatedAngles [0], 0 ≤ x ∧ x < twopi) ∧
    (gapSeq [0]).getD (lastArgmax (gapSeq [0])) 0 = listMax (gapSeq [0]) ∧
    (∀ j, lastArgmax (gapSeq [0]) < j → j < (gapSeq [0]).length →
      (gapSeq [0]).getD j 0 < listMax (gapSeq [0])) ∧
    rotAngle [0] =
      (np_sort [0]).getD ((lastArgmax (gapSeq [0]) + 1) % ([0] : List ℝ).length) 0 ∧
    (∀ g ∈ np_diff (np_sort (rotatedAngles [0])),
      g ≤ twopi - (np_sort (rotatedAngles [0])).getLastD 0
        + (np_sort (rotatedAngles [0])).headI)) := by
  have hr : ∀ a ∈ ([0] : List ℝ), 0 ≤ a ∧ a < twopi := by
    intro a ha
    rw [List.mem_singleton] at ha
    subst ha
    exact ⟨le_refl 0, twopi_pos⟩
  exact ⟨by simp, hr, rotateAngles_invariants [0] (by simp) hr⟩

/-- Claim C5 counterexample: on the empty input _rotateAngles raises (the
indexing of the sorted array fails) although no pair of input angles gives a
negative wraparound gap, so the raise-only-on-negative-wraparound claim fails
without a non-empty hypothesis. -/
theorem rotateAngles_empty_counterexample :
    (∃ msg, rotateAngles ([] : List ℝ) = .error msg) ∧
    ¬ ∃ hi lo, hi ∈ ([] : List ℝ) ∧ lo ∈ ([] : List ℝ) ∧ twopi - hi + lo < 0 := by
  constructor
  · exact ⟨_, rfl⟩
  · rintro ⟨hi, lo, hmem, -, -⟩
    exact List.not_mem_nil hi hmem

/-- Claim C5 amended: for every non-empty input, _rotateAngles (and hence
RmsAngleMetric.run and FullRangeAngleMetric.run) raises exactly when the
wraparound gap twopi minus the largest angle plus the smallest angle is
negative; the empty input also raises, through an index error. -/
theorem rotateAngles_raise_iff (angles : List ℝ) (hne : angles ≠ []) :
    ((∃ msg, rotateAngles angles = .error msg) ↔
      twopi - listMax angles + listMin angles < 0) ∧
    ((∃ msg, rmsAngleMetricRun angles = .error msg) ↔
      twopi - listMax angles + listMin angles < 0) ∧
    ((∃ msg, fullRangeAngleMetricRun angles = .error msg) ↔
      twopi - listMax angles + listMin angles < 0) := by
  have hsNe : np_sort angles ≠ [] := np_sort_ne_nil angles hne
  have hsSorted := sorted_np_sort angles
  have hsPerm := perm_np_sort angles
  have hlast : (np_sort angles).getLastD 0 = listMax angles := by
    apply le_antisymm
    · exact le_listMax _ (hsPerm.subset (getLastD_mem _ hsNe 0))
    · exact sorted_le_getLastD _ hsSorted _ (hsPerm.mem_iff.mpr (listMax_mem hne))
  have hhead : (np_sort angles).headI = listMin angles := by
    apply le_antisymm
    · exact sorted_headI_le _ hsSorted _ (hsPerm.mem_iff.mpr (listMin_mem hne))
    · exact listMin_le _ (hsPerm.subset (headI_mem _ hsNe))
  have hsw : startToEnd angles = twopi - listMax angles + listMin angles := by
    rw [startToEnd, hlast, hhead]
  have hcore : (∃ msg, rotateAngles angles = .error msg) ↔ startToEnd angles < 0 := by
    rw [rotateAngles, if_neg (fun hc => hne (List.length_eq_zero.mp hc))]
    by_cases hlt : startToEnd angles < 0
    · rw [if_pos hlt]
      exact ⟨fun _ => hlt, fun _ => ⟨_, rfl⟩⟩
    · rw [if_neg hlt]
      constructor
      · rintro ⟨msg, hmsg⟩
        exact absurd hmsg (by simp)
      · intro h
        exact absurd h hlt
  have hmapIff : ∀ g : ℝ × List ℝ → ℝ,
      (∃ msg, (rotateAngles angles).map g = .error msg) ↔
      (∃ msg, rotateAngles angles = .error msg) := by
    intro g
    cases hcase : rotateAngles angles <;> simp [Except.map]
  refine ⟨?_, ?_, ?_⟩
  · rw [← hsw]; exact hcore
  · rw [← hsw, rmsAngleMetricRun]
    exact (hmapIff _).trans hcore
  · rw [← hsw, fullRangeAngleMetricRun]
    exact (hmapIff _).trans hcore

/-- Claim C5 witness: the theorem applied to the one-element list 0. -/
theorem rotateAngles_raise_iff_witness :
    (([0] : List ℝ) ≠ []) ∧
    (((∃ msg, rotateAngles [0] = .error msg) ↔
      twopi - listMax ([0] : List ℝ) + listMin ([0] : List ℝ) < 0) ∧
    ((∃ msg, rmsAngleMetricRun [0] = .error msg) ↔
      twopi - listMax ([0] : List ℝ) + listMin ([0] : List ℝ) < 0) ∧
    ((∃ msg, fullRangeAngleMetricRun [0] = .error msg) ↔
      twopi - listMax ([0] : List ℝ) + listMin ([0] : List ℝ) < 0)) :=
  ⟨by simp, rotateAngles_raise_iff [0] (by simp)⟩

end SimsMaf
